import Mathlib

/-!
Verification of the Hadoop-snappy framing layer of `snappy/snappy_hadoop.py`.

Bytes are modelled as natural numbers (`List ℕ`); the underlying snappy
codec is external to this module (imported from `_snappy`/`snappy_cffi`),
so it is passed around as an opaque pair of functions
`compress uncompress : List ℕ → List ℕ` together with the hypotheses the
claims need (round-trip, non-emptiness, worst-case expansion bound).

File-like sources are modelled as the list of bytes remaining; `read(n)`
takes up to `n` bytes.  The output sink of the whole-stream helpers is
modelled as the list of bytes written so far, returned together with an
`Option PErr` recording whether the Python code raised an exception after
those writes.
-/

namespace SnappyHadoop

/-- The exceptions the stream helpers can raise.
`structError` is `struct.error` from `struct.unpack('>I', data)` when
`data` has 1–3 bytes; the three `UncompressError` cases carry the distinct
messages raised at lines 181, 184 and 187 of `snappy_hadoop.py`;
`typeError` is the `TypeError` a Python 3 file-like `read` raises when
handed the `float` block size that `stream_compress` derives at line 158.
`fuelError` is a modelling artifact of the fuel-indexed loops and is
unreachable whenever the fuel exceeds the input length (the Python `while`
loops always terminate because every iteration consumes at least 9 bytes). -/
inductive PErr where
  | structError : PErr
  | failedLenErr : PErr
  | failedChunkErr : PErr
  | mismatchErr : PErr
  | typeError : PErr
  | fuelError : PErr
deriving DecidableEq, Repr

/-- `struct.unpack('>I', data)[0]` for a 4-byte big-endian field. -/
def beVal (data : List ℕ) : ℕ :=
  match data with
  | [a, b, c, d] => a * 2 ^ 24 + b * 2 ^ 16 + c * 2 ^ 8 + d
  | _ => 0

/-- `prepare_num`: `struct.pack('>I', num)`, the 4 big-endian bytes of `num`
(faithful for `num < 2^32`; Python raises `struct.error` outside that range,
so theorems carry the range hypothesis where it matters). -/
def prepare_num (num : ℕ) : List ℕ :=
  [num / 2 ^ 24 % 256, num / 2 ^ 16 % 256, num / 2 ^ 8 % 256, num % 256]

/-- `read_int(fin)`: reads up to 4 bytes; returns 0 when no bytes remain,
raises `struct.error` when 1–3 bytes remain, otherwise unpacks a
big-endian u32.  Returns the value together with the rest of the source. -/
def read_int (s : List ℕ) : Except PErr (ℕ × List ℕ) :=
  let data := s.take 4
  if data.length = 0 then .ok (0, s.drop 4)
  else if data.length < 4 then .error .structError
  else .ok (beVal data, s.drop 4)

/-- `StreamCompressor.add_chunk(data)`: the frame
`prepare_num(len(data)) ++ prepare_num(len(compress(data))) ++ compress(data)`.
`StreamCompressor` holds no state, so the method is a plain function of the
codec and the data. -/
def add_chunk (compress : List ℕ → List ℕ) (data : List ℕ) : List ℕ :=
  prepare_num data.length ++ prepare_num (compress data).length ++ compress data

/-- One pass of the `while` loop of `stream_compress` (lines 159–165),
fuel-indexed (the loop terminates because each iteration consumes
`min blocksize (len src) ≥ 1` bytes when `blocksize ≥ 1`; fuel
`len src + 1` always suffices).  `src.read(blocksize)` yields
`s.take blocksize`; a falsy (empty) read breaks the loop, which also
covers `blocksize = 0`. -/
def scLoop (compress : List ℕ → List ℕ) (blocksize : ℕ) :
    ℕ → List ℕ → List ℕ
  | 0, _ => []
  | fuel + 1, s =>
    let buf := s.take blocksize
    if buf.length = 0 then []
    else add_chunk compress buf ++ scLoop compress blocksize fuel (s.drop blocksize)

/-- The chunk-and-frame loop of `stream_compress` (lines 159–165) run with
an integer per-read count `blocksize` — the behaviour of the function when
the resolved block size is a usable integer, i.e. under the Python 2
integer division this code was written against, or after the evident `//`
fix of line 73.  Returns the bytes written to `dst`. -/
def stream_compress_chunked (compress : List ℕ → List ℕ) (blocksize : ℕ)
    (src : List ℕ) : List ℕ :=
  scLoop compress blocksize (src.length + 1) src

/-- `hadoop_snappy_max_input_size(block_size)` (defined below, used here
by `stream_compress` at line 158): a falsy (`0`/`None`) argument selects
the 256 KiB default; the result is
`buffer_size - (buffer_size / 6 + 32)` with Python 3 true division,
modelled exactly over ℚ. -/
def hadoop_snappy_max_input_size (block_size : ℤ) : ℚ :=
  let buffer_size : ℚ := if block_size = 0 then 256 * 1024 else block_size
  buffer_size - (buffer_size / 6 + 32)

/-- `stream_compress(src, dst, blocksize)` as shipped: line 158 rebinds
`blocksize` to `hadoop_snappy_max_input_size(blocksize)`, which under
Python 3 true division is a `float` (`218421.33…` for the default, and a
`float` even when its value is integral).  The first `src.read(blocksize)`
of the loop (line 160) therefore raises
`TypeError: argument should be integer …` before any byte is read or
written — for every block-size argument and every source, the empty one
included.  The loop body, unreachable here, is `stream_compress_chunked`
above.  Returns the bytes written to `dst` and the exception raised. -/
def stream_compress (compress : List ℕ → List ℕ) (blocksize : ℤ)
    (src : List ℕ) : List ℕ × Option PErr :=
  let _blocksize : ℚ := hadoop_snappy_max_input_size blocksize
  ([], some .typeError)

/-- One pass of the `stream_decompress` loop, fuel-indexed (each iteration
that loops again consumes `4 + 4 + compressed_length ≥ 9` bytes, so fuel
`len src + 1` always suffices).  Returns the bytes written to `dst` and
the exception raised, if any. -/
def sdLoop (uncompress : List ℕ → List ℕ) :
    ℕ → List ℕ → List ℕ × Option PErr
  | 0, _ => ([], some .fuelError)
  | fuel + 1, s =>
    match read_int s with
    | .error e => ([], some e)
    | .ok (uncompressed_length, s1) =>
      if uncompressed_length = 0 then ([], none)
      else
        match read_int s1 with
        | .error e => ([], some e)
        | .ok (compressed_length, s2) =>
          if compressed_length = 0 then ([], some .failedLenErr)
          else
            let compressed_chunk := s2.take compressed_length
            if compressed_chunk.length ≠ compressed_length then
              ([], some .failedChunkErr)
            else
              let uncompressed_chunk := uncompress compressed_chunk
              if uncompressed_chunk.length ≠ uncompressed_length then
                ([], some .mismatchErr)
              else
                let r := sdLoop uncompress fuel (s2.drop compressed_length)
                (uncompressed_chunk ++ r.1, r.2)

/-- `stream_decompress(src, dst)`: returns the bytes written to `dst`
together with the exception raised, if any (`none` = normal return). -/
def stream_decompress (uncompress : List ℕ → List ℕ) (src : List ℕ) :
    List ℕ × Option PErr :=
  sdLoop uncompress (src.length + 1) src

/-! ### Basic lemmas about the length-field codec -/

theorem prepare_num_length (num : ℕ) : (prepare_num num).length = 4 := rfl

theorem beVal_prepare_num (num : ℕ) (h : num < 2 ^ 32) :
    beVal (prepare_num num) = num := by
  simp only [prepare_num, beVal]
  omega

theorem prepare_num_zero : prepare_num 0 = [0, 0, 0, 0] := rfl

/-- Reading a length field off the front of a stream that starts with a
packed u32 recovers the number and leaves the rest. -/
theorem read_int_prepare_num (num : ℕ) (h : num < 2 ^ 32) (rest : List ℕ) :
    read_int (prepare_num num ++ rest) = .ok (num, rest) := by
  have htake : (prepare_num num ++ rest).take 4 = prepare_num num := by
    simp [prepare_num]
  have hdrop : (prepare_num num ++ rest).drop 4 = rest := by
    simp [prepare_num]
  simp [read_int, htake, hdrop, prepare_num_length, beVal_prepare_num num h]

theorem read_int_nil : read_int [] = .ok (0, []) := rfl

/-- Reading a length field from a non-empty stream of fewer than 4 bytes
raises `struct.error`. -/
theorem read_int_short (s : List ℕ) (h0 : s ≠ []) (h4 : s.length < 4) :
    read_int s = .error .structError := by
  have htake : s.take 4 = s := List.take_of_length_le (by omega)
  have : s.length ≠ 0 := by
    simpa [List.length_eq_zero] using h0
  simp [read_int, htake, this, h4]

theorem add_chunk_length (compress : List ℕ → List ℕ) (data : List ℕ) :
    (add_chunk compress data).length = 8 + (compress data).length := by
  simp [add_chunk, prepare_num_length]
  omega

/-! ### The `stream_decompress` loop -/

/-- Exhaustive description of `read_int` on an arbitrary source. -/
theorem read_int_cases (s : List ℕ) :
    (s = [] ∧ read_int s = .ok (0, [])) ∨
    (s ≠ [] ∧ s.length < 4 ∧ read_int s = .error .structError) ∨
    (4 ≤ s.length ∧ read_int s = .ok (beVal (s.take 4), s.drop 4)) := by
  by_cases h0 : s.length = 0
  · obtain rfl : s = [] := List.length_eq_zero.mp h0
    exact Or.inl ⟨rfl, rfl⟩
  · by_cases h4 : s.length < 4
    · refine Or.inr (Or.inl ⟨?_, h4, read_int_short s ?_ h4⟩) <;>
        simpa [← List.length_eq_zero] using h0
    · refine Or.inr (Or.inr ⟨by omega, ?_⟩)
      have htl : (s.take 4).length = 4 := by
        rw [List.length_take]
        omega
      simp [read_int, htl]

/-- What a successful `read_int` tells us about the source. -/
theorem read_int_ok {s : List ℕ} {v : ℕ} {t : List ℕ}
    (h : read_int s = .ok (v, t)) : t = s.drop 4 ∧ (v ≠ 0 → 4 ≤ s.length) := by
  rcases read_int_cases s with ⟨hs, hri⟩ | ⟨_, _, hri⟩ | ⟨h4, hri⟩ <;>
      rw [hri] at h
  · subst hs
    obtain ⟨rfl, rfl⟩ : v = 0 ∧ t = [] := by
      simpa [eq_comm] using h
    exact ⟨rfl, fun hv => absurd rfl hv⟩
  · exact absurd h (by simp)
  · obtain ⟨rfl, rfl⟩ : v = beVal (s.take 4) ∧ t = s.drop 4 := by
      simpa [eq_comm] using h
    exact ⟨rfl, fun _ => h4⟩

/-- The result of `sdLoop` does not depend on the fuel, as long as the fuel
exceeds the number of source bytes (each loop iteration that recurses
consumes at least 9 of them). -/
theorem sdLoop_fuel_congr (uncompress : List ℕ → List ℕ) :
    ∀ fuel₁ fuel₂ s, s.length < fuel₁ → s.length < fuel₂ →
      sdLoop uncompress fuel₁ s = sdLoop uncompress fuel₂ s := by
  intro fuel₁
  induction fuel₁ with
  | zero => intro fuel₂ s h1 _; exact absurd h1 (by omega)
  | succ f ih =>
    intro fuel₂ s h1 h2
    obtain ⟨g, rfl⟩ : ∃ g, fuel₂ = g + 1 := ⟨fuel₂ - 1, by omega⟩
    simp only [sdLoop]
    rcases hri : read_int s with e | ⟨u, s1⟩
    · rfl
    · by_cases hu : u = 0
      · simp [hu]
      · simp only [if_neg hu]
        rcases hri2 : read_int s1 with e | ⟨c, s2⟩
        · rfl
        · by_cases hc : c = 0
          · simp [hc]
          · simp only [if_neg hc]
            by_cases hlen : (s2.take c).length ≠ c
            · rw [if_pos hlen, if_pos hlen]
            · rw [if_neg hlen, if_neg hlen]
              push_neg at hlen
              obtain ⟨rfl, hs4⟩ := read_int_ok hri
              obtain ⟨rfl, hs14⟩ := read_int_ok hri2
              have h1l := hs4 hu
              have h2l := hs14 hc
              have hcle : c ≤ ((s.drop 4).drop 4).length := by
                rw [← hlen, List.length_take]
                omega
              have hrec : (((s.drop 4).drop 4).drop c).length < f ∧
                  (((s.drop 4).drop 4).drop c).length < g := by
                simp only [List.length_drop] at hcle h2l ⊢
                omega
              rw [ih g _ hrec.1 hrec.2]

/-- A complete well-formed frame at the head of the source: the loop parses
it, then either raises the length-mismatch error or emits the decoded chunk
and continues on the rest of the source. -/
theorem sdLoop_frame (uncompress : List ℕ → List ℕ) (u : ℕ) (body rest : List ℕ)
    (fuel : ℕ) (hu : u ≠ 0) (hu32 : u < 2 ^ 32) (hb : body ≠ [])
    (hb32 : body.length < 2 ^ 32) :
    sdLoop uncompress (fuel + 1)
        (prepare_num u ++ prepare_num body.length ++ body ++ rest) =
      if (uncompress body).length = u then
        ((uncompress body) ++ (sdLoop uncompress fuel rest).1,
          (sdLoop uncompress fuel rest).2)
      else ([], some .mismatchErr) := by
  have hri1 : read_int (prepare_num u ++ prepare_num body.length ++ body ++ rest)
      = .ok (u, prepare_num body.length ++ body ++ rest) := by
    have := read_int_prepare_num u hu32 (prepare_num body.length ++ body ++ rest)
    simpa [List.append_assoc] using this
  have hri2 : read_int (prepare_num body.length ++ body ++ rest)
      = .ok (body.length, body ++ rest) := by
    have := read_int_prepare_num body.length hb32 (body ++ rest)
    simpa [List.append_assoc] using this
  have hcne : body.length ≠ 0 := by
    simpa [List.length_eq_zero] using hb
  have htake : (body ++ rest).take body.length = body := List.take_left body rest
  have hdrop : (body ++ rest).drop body.length = rest := List.drop_left body rest
  simp only [sdLoop, hri1, hri2, if_neg hu, if_neg hcne, htake, hdrop]
  by_cases hm : (uncompress body).length = u
  · simp [hm]
  · simp [hm]

/-- `stream_decompress` on a well-formed, correctly-decoding frame followed
by arbitrary further bytes: the decoded chunk is written and decoding
continues on the remaining bytes. -/
theorem stream_decompress_frame (uncompress : List ℕ → List ℕ) (u : ℕ)
    (body rest : List ℕ) (hu : u ≠ 0) (hu32 : u < 2 ^ 32) (hb : body ≠ [])
    (hb32 : body.length < 2 ^ 32) (hmatch : (uncompress body).length = u) :
    stream_decompress uncompress
        (prepare_num u ++ prepare_num body.length ++ body ++ rest) =
      ((uncompress body) ++ (stream_decompress uncompress rest).1,
        (stream_decompress uncompress rest).2) := by
  unfold stream_decompress
  have hlen : (prepare_num u ++ prepare_num body.length ++ body ++ rest).length
      = 8 + body.length + rest.length := by
    simp [prepare_num_length]
    omega
  rw [hlen]
  have hstep := sdLoop_frame uncompress u body rest (8 + body.length + rest.length)
    hu hu32 hb hb32
  rw [if_pos hmatch] at hstep
  rw [hstep, sdLoop_fuel_congr uncompress (8 + body.length + rest.length)
    (rest.length + 1) rest (by omega) (by omega)]

/-- `read_int` on a source of at least 4 bytes. -/
theorem read_int_long {s : List ℕ} (h : 4 ≤ s.length) :
    read_int s = .ok (beVal (s.take 4), s.drop 4) := by
  rcases read_int_cases s with ⟨rfl, _⟩ | ⟨_, h4, _⟩ | ⟨_, hri⟩
  · simp at h
  · omega
  · exact hri

theorem stream_decompress_nil (uncompress : List ℕ → List ℕ) :
    stream_decompress uncompress [] = ([], none) := rfl

/-- A zero-valued leading uncompressed-length field terminates decoding
normally, whatever follows it. -/
theorem stream_decompress_zero (uncompress : List ℕ → List ℕ) (rest : List ℕ) :
    stream_decompress uncompress (prepare_num 0 ++ rest) = ([], none) := by
  unfold stream_decompress
  have h4 : 4 ≤ (prepare_num 0 ++ rest).length := by
    simp [prepare_num_length]
  have htake : (prepare_num 0 ++ rest).take 4 = prepare_num 0 := by
    simp [prepare_num]
  obtain ⟨f, hf⟩ : ∃ f, (prepare_num 0 ++ rest).length + 1 = f + 1 :=
    ⟨(prepare_num 0 ++ rest).length, rfl⟩
  rw [hf]
  simp only [sdLoop, read_int_long h4, htake]
  simp [beVal, prepare_num]

/-! ### The `stream_compress` loop -/

/-- The result of `scLoop` does not depend on the fuel, as long as the fuel
exceeds the number of source bytes (each iteration that recurses consumes
`min blocksize (len s) ≥ 1` bytes). -/
theorem scLoop_fuel_congr (compress : List ℕ → List ℕ) (blocksize : ℕ) :
    ∀ fuel₁ fuel₂ s, s.length < fuel₁ → s.length < fuel₂ →
      scLoop compress blocksize fuel₁ s = scLoop compress blocksize fuel₂ s := by
  intro fuel₁
  induction fuel₁ with
  | zero => intro fuel₂ s h1 _; exact absurd h1 (by omega)
  | succ f ih =>
    intro fuel₂ s h1 h2
    obtain ⟨g, rfl⟩ : ∃ g, fuel₂ = g + 1 := ⟨fuel₂ - 1, by omega⟩
    simp only [scLoop]
    by_cases hbuf : (s.take blocksize).length = 0
    · rw [if_pos hbuf, if_pos hbuf]
    · rw [if_neg hbuf, if_neg hbuf]
      have hpos : 0 < blocksize ∧ 0 < s.length := by
        rw [List.length_take] at hbuf
        omega
      have : (s.drop blocksize).length < f ∧ (s.drop blocksize).length < g := by
        rw [List.length_drop]
        omega
      rw [ih g _ this.1 this.2]

theorem stream_compress_chunked_nil (compress : List ℕ → List ℕ) (blocksize : ℕ) :
    stream_compress_chunked compress blocksize [] = [] := by
  simp [stream_compress_chunked, scLoop]

/-- One iteration of the chunking loop on a non-empty source with a
positive block size: frame the first `blocksize` bytes, then continue. -/
theorem stream_compress_chunked_cons (compress : List ℕ → List ℕ) (blocksize : ℕ)
    (s : List ℕ) (hb : 0 < blocksize) (hs : s ≠ []) :
    stream_compress_chunked compress blocksize s =
      add_chunk compress (s.take blocksize) ++
        stream_compress_chunked compress blocksize (s.drop blocksize) := by
  have hsl : 0 < s.length := List.length_pos.mpr hs
  have hbuf : ¬(s.take blocksize).length = 0 := by
    rw [List.length_take]
    omega
  show scLoop compress blocksize (s.length + 1) s = _
  obtain ⟨f, hf⟩ : ∃ f, s.length + 1 = f + 1 := ⟨s.length, rfl⟩
  rw [hf]
  simp only [scLoop, if_neg hbuf]
  rw [scLoop_fuel_congr compress blocksize f ((s.drop blocksize).length + 1)
    (s.drop blocksize) (by rw [List.length_drop]; omega) (by omega)]
  rfl

/-! ### Round trip of the whole-stream helpers -/

/-- Round trip of the chunking loop: whatever the loop of lines 159–165
framed (run with an integer per-read count), `stream_decompress` decodes
back to the source bytes, with no exception raised.  The codec is opaque:
we assume it round-trips, never returns an empty compressed block for a
non-empty input, and keeps 32-bit-sized inputs 32-bit-sized. -/
theorem stream_round_trip (compress uncompress : List ℕ → List ℕ)
    (hrt : ∀ x, uncompress (compress x) = x)
    (hne : ∀ x, x ≠ [] → compress x ≠ [])
    (hsz : ∀ x, x.length < 2 ^ 32 → (compress x).length < 2 ^ 32)
    (blocksize : ℕ) (hb : 0 < blocksize)
    (d : List ℕ) (hd : d.length < 2 ^ 32) :
    stream_decompress uncompress (stream_compress_chunked compress blocksize d)
      = (d, none) := by
  generalize hn : d.length = n
  induction n using Nat.strong_induction_on generalizing d with
  | _ n ih =>
    rcases eq_or_ne d [] with rfl | hd0
    · rw [stream_compress_chunked_nil, stream_decompress_nil]
    · rw [stream_compress_chunked_cons compress blocksize d hb hd0]
      set ch := d.take blocksize with hch
      have hchne : ch ≠ [] := by
        rw [hch, ← List.length_pos, List.length_take]
        have := List.length_pos.mpr hd0
        omega
      have hchlen : ch.length < 2 ^ 32 := by
        rw [hch, List.length_take]
        omega
      have hchu : ch.length ≠ 0 := by
        simpa [List.length_eq_zero] using hchne
      have hexp : add_chunk compress ch ++
          stream_compress_chunked compress blocksize (d.drop blocksize) =
          prepare_num ch.length ++ prepare_num (compress ch).length ++
            compress ch ++
            stream_compress_chunked compress blocksize (d.drop blocksize) := by
        simp [add_chunk]
      rw [hexp, stream_decompress_frame uncompress ch.length (compress ch)
        (stream_compress_chunked compress blocksize (d.drop blocksize)) hchu hchlen
        (hne ch hchne) (hsz ch hchlen) (by rw [hrt ch])]
      have hdrop : (d.drop blocksize).length < n := by
        rw [List.length_drop]
        have := List.length_pos.mpr hd0
        omega
      rw [ih (d.drop blocksize).length hdrop (d.drop blocksize)
        (by rw [List.length_drop]; omega) rfl]
      simp [hrt ch, hch]

/-! ### The incremental frame decoder

Modelled from the spec: the incremental `StreamDecompressor.decompress`
class used by `test_hadoop_snappy.py` is not part of the sources under
`src/`; §4.2 of the spec describes it as a state machine
(AwaitUncompressedLen / AwaitCompressedLen / AwaitCompressedBody) over an
accumulation buffer, which parses each frame's two big-endian u32 length
fields, accumulates `compressed_length` body bytes, decodes the body,
fails on a decoded-length mismatch, and otherwise emits the decoded chunk
and returns to the first state; a `0` uncompressed length is decoded as an
empty chunk and the machine proceeds.  Because the machine re-parses
deterministically from the front of the buffered bytes, the state is
represented by the buffer of not-yet-consumed raw bytes alone (the cursor
is a function of it). -/

/-- The number of bytes of the (possibly still incomplete) frame at the
front of the buffer: 8 header bytes plus the compressed length, which
reads as 0 while fewer than 8 bytes are buffered. -/
def frameLen (s : List ℕ) : ℕ := 8 + beVal ((s.drop 4).take 4)

/-- Modelled from the spec: the greedy decode loop of the incremental
decoder, fuel-indexed (each complete frame consumes `8 + compressed_length
≥ 8` buffered bytes, so fuel `len s + 1` always suffices).  Returns the
decoded output together with the buffered remainder that does not yet form
a complete frame. -/
def dpLoop (uncompress : List ℕ → List ℕ) :
    ℕ → List ℕ → Except PErr (List ℕ × List ℕ)
  | 0, _ => .error .fuelError
  | fuel + 1, s =>
    if s.length < 4 then .ok ([], s)
    else if s.length < 8 then .ok ([], s)
    else
      let compressed_length := beVal ((s.drop 4).take 4)
      if s.length < 8 + compressed_length then .ok ([], s)
      else
        let uncompressed_length := beVal (s.take 4)
        let chunk := uncompress ((s.drop 8).take compressed_length)
        if chunk.length ≠ uncompressed_length then .error .mismatchErr
        else
          match dpLoop uncompress fuel (s.drop (8 + compressed_length)) with
          | .error e => .error e
          | .ok (out, rem) => .ok (chunk ++ out, rem)

/-- Decode as much as the buffered bytes allow. -/
def dpProcess (uncompress : List ℕ → List ℕ) (s : List ℕ) :
    Except PErr (List ℕ × List ℕ) :=
  dpLoop uncompress (s.length + 1) s

/-- Modelled from the spec: `StreamDecompressor.decompress(piece)` —
append the new piece to the accumulation buffer, return the decoded output
and the successor decoder state. -/
def hadoop_decompress (uncompress : List ℕ → List ℕ)
    (buf piece : List ℕ) : Except PErr (List ℕ × List ℕ) :=
  dpProcess uncompress (buf ++ piece)

/-- Feed a list of pieces to one decoder in order, concatenating all
returned output; errors propagate. -/
def feedPieces (uncompress : List ℕ → List ℕ) (buf : List ℕ) :
    List (List ℕ) → Except PErr (List ℕ × List ℕ)
  | [] => .ok ([], buf)
  | piece :: pieces =>
    match hadoop_decompress uncompress buf piece with
    | .error e => .error e
    | .ok (out, buf2) =>
      match feedPieces uncompress buf2 pieces with
      | .error e => .error e
      | .ok (outs, buff) => .ok (out ++ outs, buff)

/-- A buffer is pending when it does not yet hold a complete frame. -/
def Pending (s : List ℕ) : Prop := s.length < frameLen s

/-- On a pending buffer the decode loop consumes nothing. -/
theorem dpLoop_pending (uncompress : List ℕ → List ℕ) (fuel : ℕ)
    {s : List ℕ} (h : Pending s) :
    dpLoop uncompress (fuel + 1) s = .ok ([], s) := by
  unfold Pending frameLen at h
  by_cases h4 : s.length < 4
  · simp [dpLoop, h4]
  · by_cases h8 : s.length < 8
    · simp [dpLoop, h4, h8]
    · simp [dpLoop, h4, h8, h]

theorem dpProcess_pending (uncompress : List ℕ → List ℕ) {s : List ℕ}
    (h : Pending s) : dpProcess uncompress s = .ok ([], s) :=
  dpLoop_pending uncompress s.length h

/-- The result of `dpLoop` does not depend on the fuel, as long as the
fuel exceeds the number of buffered bytes. -/
theorem dpLoop_fuel_congr (uncompress : List ℕ → List ℕ) :
    ∀ fuel₁ fuel₂ s, s.length < fuel₁ → s.length < fuel₂ →
      dpLoop uncompress fuel₁ s = dpLoop uncompress fuel₂ s := by
  intro fuel₁
  induction fuel₁ with
  | zero => intro fuel₂ s h1 _; exact absurd h1 (by omega)
  | succ f ih =>
    intro fuel₂ s h1 h2
    obtain ⟨g, rfl⟩ : ∃ g, fuel₂ = g + 1 := ⟨fuel₂ - 1, by omega⟩
    simp only [dpLoop]
    by_cases h4 : s.length < 4
    · rw [if_pos h4, if_pos h4]
    · rw [if_neg h4, if_neg h4]
      by_cases h8 : s.length < 8
      · rw [if_pos h8, if_pos h8]
      · rw [if_neg h8, if_neg h8]
        set c := beVal ((s.drop 4).take 4) with hc
        by_cases hcl : s.length < 8 + c
        · rw [if_pos hcl, if_pos hcl]
        · rw [if_neg hcl, if_neg hcl]
          by_cases hm :
              (uncompress ((s.drop 8).take c)).length ≠ beVal (s.take 4)
          · rw [if_pos hm, if_pos hm]
          · rw [if_neg hm, if_neg hm]
            have hrec : (s.drop (8 + c)).length < f ∧
                (s.drop (8 + c)).length < g := by
              rw [List.length_drop]
              omega
            rw [ih g _ hrec.1 hrec.2]

/-- A complete frame at the front of the buffer: the decoder decodes it
(or raises the mismatch error) and continues greedily. -/
theorem dpProcess_step (uncompress : List ℕ → List ℕ) {s : List ℕ}
    (h : frameLen s ≤ s.length) :
    dpProcess uncompress s =
      if (uncompress ((s.drop 8).take (beVal ((s.drop 4).take 4)))).length ≠
          beVal (s.take 4) then .error .mismatchErr
      else
        match dpProcess uncompress (s.drop (frameLen s)) with
        | .error e => .error e
        | .ok (out, rem) =>
          .ok (uncompress ((s.drop 8).take (beVal ((s.drop 4).take 4))) ++ out,
            rem) := by
  unfold frameLen at h ⊢
  set c := beVal ((s.drop 4).take 4) with hc
  have h4 : ¬s.length < 4 := by omega
  have h8 : ¬s.length < 8 := by omega
  have hcl : ¬s.length < 8 + c := by omega
  show dpLoop uncompress (s.length + 1) s = _
  obtain ⟨f, hf⟩ : ∃ f, s.length + 1 = f + 1 := ⟨s.length, rfl⟩
  rw [hf]
  simp only [dpLoop, if_neg h4, if_neg h8, ← hc, if_neg hcl]
  by_cases hm : (uncompress ((s.drop 8).take c)).length ≠ beVal (s.take 4)
  · rw [if_pos hm, if_pos hm]
  · rw [if_neg hm, if_neg hm]
    rw [dpLoop_fuel_congr uncompress f ((s.drop (8 + c)).length + 1)
      (s.drop (8 + c)) (by rw [List.length_drop]; omega) (by omega)]
    rfl

/-- Appending bytes does not change the frame parsed at the front of a
buffer that already holds a complete frame. -/
theorem frame_fields_append {x : List ℕ} (y : List ℕ)
    (h : frameLen x ≤ x.length) :
    (x ++ y).take 4 = x.take 4 ∧
    ((x ++ y).drop 4).take 4 = (x.drop 4).take 4 ∧
    frameLen (x ++ y) = frameLen x ∧
    ((x ++ y).drop 8).take (beVal ((x.drop 4).take 4)) =
      (x.drop 8).take (beVal ((x.drop 4).take 4)) ∧
    (x ++ y).drop (frameLen x) = x.drop (frameLen x) ++ y := by
  unfold frameLen at h ⊢
  set c := beVal ((x.drop 4).take 4) with hc
  have h4 : 4 ≤ x.length := by omega
  have ht4 : (x ++ y).take 4 = x.take 4 :=
    List.take_append_of_le_length h4
  have hd4 : (x ++ y).drop 4 = x.drop 4 ++ y :=
    List.drop_append_of_le_length h4
  have hd4t : ((x ++ y).drop 4).take 4 = (x.drop 4).take 4 := by
    rw [hd4]
    exact List.take_append_of_le_length (by rw [List.length_drop]; omega)
  have hd8 : (x ++ y).drop 8 = x.drop 8 ++ y :=
    List.drop_append_of_le_length (by omega)
  have hd8t : ((x ++ y).drop 8).take c = (x.drop 8).take c := by
    rw [hd8]
    exact List.take_append_of_le_length (by rw [List.length_drop]; omega)
  have hdc : (x ++ y).drop (8 + c) = x.drop (8 + c) ++ y :=
    List.drop_append_of_le_length (by omega)
  exact ⟨ht4, hd4t, by rw [hd4t], hd8t, hdc⟩

/-- The buffered remainder the decoder keeps never contains a complete
frame. -/
theorem dpProcess_leftover (uncompress : List ℕ → List ℕ) :
    ∀ s out rem, dpProcess uncompress s = .ok (out, rem) → Pending rem := by
  intro s
  generalize hn : s.length = n
  induction n using Nat.strong_induction_on generalizing s with
  | _ n ih =>
    intro out rem hok
    by_cases hp : Pending s
    · rw [dpProcess_pending uncompress hp] at hok
      obtain ⟨rfl, rfl⟩ : [] = out ∧ s = rem := by
        simpa using hok
      exact hp
    · unfold Pending at hp
      push_neg at hp
      rw [dpProcess_step uncompress hp] at hok
      by_cases hm : (uncompress ((s.drop 8).take (beVal ((s.drop 4).take 4)))).length
          ≠ beVal (s.take 4)
      · rw [if_pos hm] at hok
        exact absurd hok (by simp)
      · rw [if_neg hm] at hok
        rcases hrec : dpProcess uncompress (s.drop (frameLen s)) with e | ⟨o2, r2⟩ <;>
            rw [hrec] at hok
        · exact absurd hok (by simp)
        · obtain ⟨rfl, rfl⟩ :
              uncompress ((s.drop 8).take (beVal ((s.drop 4).take 4))) ++ o2 = out ∧
                r2 = rem := by
            simpa using hok
          have hlt : (s.drop (frameLen s)).length < n := by
            rw [List.length_drop]
            unfold frameLen at hp ⊢
            omega
          exact ih _ hlt _ rfl _ _ hrec

/-- Feeding more bytes after an erroring buffer still errors (the error
happens while decoding a complete frame that the extra bytes cannot
change). -/
theorem dpProcess_append_error (uncompress : List ℕ → List ℕ) :
    ∀ s y e, dpProcess uncompress s = .error e →
      dpProcess uncompress (s ++ y) = .error e := by
  intro s
  generalize hn : s.length = n
  induction n using Nat.strong_induction_on generalizing s with
  | _ n ih =>
    intro y e herr
    by_cases hp : Pending s
    · rw [dpProcess_pending uncompress hp] at herr
      exact absurd herr (by simp)
    · unfold Pending at hp
      push_neg at hp
      obtain ⟨ht4, hd4t, hfl, hd8t, hdc⟩ := frame_fields_append y hp
      have hp2 : frameLen (s ++ y) ≤ (s ++ y).length := by
        rw [hfl, List.length_append]
        omega
      rw [dpProcess_step uncompress hp] at herr
      rw [dpProcess_step uncompress hp2, hfl, ht4, hd4t, hd8t, hdc]
      by_cases hm : (uncompress ((s.drop 8).take (beVal ((s.drop 4).take 4)))).length
          ≠ beVal (s.take 4)
      · rw [if_pos hm] at herr ⊢
        exact herr
      · rw [if_neg hm] at herr ⊢
        rcases hrec : dpProcess uncompress (s.drop (frameLen s)) with e' | ⟨o2, r2⟩ <;>
            rw [hrec] at herr
        · have hlt : (s.drop (frameLen s)).length < n := by
            rw [List.length_drop]
            unfold frameLen at hp ⊢
            omega
          rw [ih _ hlt _ rfl y e' hrec]
          simpa using herr
        · exact absurd herr (by simp)

/-- Greedy decoding is incremental: decoding `x ++ y` is decoding `x`,
then decoding its buffered remainder extended with `y`. -/
theorem dpProcess_append (uncompress : List ℕ → List ℕ) :
    ∀ s y out rem, dpProcess uncompress s = .ok (out, rem) →
      dpProcess uncompress (s ++ y) =
        match dpProcess uncompress (rem ++ y) with
        | .error e => .error e
        | .ok (out2, rem2) => .ok (out ++ out2, rem2) := by
  intro s
  generalize hn : s.length = n
  induction n using Nat.strong_induction_on generalizing s with
  | _ n ih =>
    intro y out rem hok
    by_cases hp : Pending s
    · rw [dpProcess_pending uncompress hp] at hok
      obtain ⟨rfl, rfl⟩ : [] = out ∧ s = rem := by
        simpa using hok
      rcases h2 : dpProcess uncompress (s ++ y) with e | ⟨o2, r2⟩ <;> simp
    · unfold Pending at hp
      push_neg at hp
      obtain ⟨ht4, hd4t, hfl, hd8t, hdc⟩ := frame_fields_append y hp
      have hp2 : frameLen (s ++ y) ≤ (s ++ y).length := by
        rw [hfl, List.length_append]
        omega
      rw [dpProcess_step uncompress hp] at hok
      rw [dpProcess_step uncompress hp2, hfl, ht4, hd4t, hd8t, hdc]
      by_cases hm : (uncompress ((s.drop 8).take (beVal ((s.drop 4).take 4)))).length
          ≠ beVal (s.take 4)
      · rw [if_pos hm] at hok
        exact absurd hok (by simp)
      · rw [if_neg hm] at hok ⊢
        rcases hrec : dpProcess uncompress (s.drop (frameLen s)) with e' | ⟨o2, r2⟩ <;>
            rw [hrec] at hok
        · exact absurd hok (by simp)
        · obtain ⟨rfl, rfl⟩ :
              uncompress ((s.drop 8).take (beVal ((s.drop 4).take 4))) ++ o2 = out ∧
                r2 = rem := by
            simpa using hok
          have hlt : (s.drop (frameLen s)).length < n := by
            rw [List.length_drop]
            unfold frameLen at hp ⊢
            omega
          rw [ih _ hlt _ rfl y o2 r2 hrec]
          rcases h3 : dpProcess uncompress (r2 ++ y) with e'' | ⟨o3, r3⟩ <;>
            simp [List.append_assoc]

/-- Feeding pieces one at a time produces exactly what one decode pass
over their concatenation produces (given the decoder starts on a buffer
with no complete frame in it). -/
theorem feedPieces_eq (uncompress : List ℕ → List ℕ) :
    ∀ (pieces : List (List ℕ)) (buf out rem : List ℕ), Pending buf →
      dpProcess uncompress (buf ++ pieces.flatten) = .ok (out, rem) →
      feedPieces uncompress buf pieces = .ok (out, rem) := by
  intro pieces
  induction pieces with
  | nil =>
    intro buf out rem hp htot
    rw [List.flatten, List.append_nil, dpProcess_pending uncompress hp] at htot
    obtain ⟨rfl, rfl⟩ : [] = out ∧ buf = rem := by
      simpa using htot
    rfl
  | cons p ps ih =>
    intro buf out rem hp htot
    have hassoc : buf ++ (p :: ps).flatten = (buf ++ p) ++ ps.flatten := by
      simp [List.flatten]
    rw [hassoc] at htot
    rcases h1 : dpProcess uncompress (buf ++ p) with e | ⟨o1, st2⟩
    · rw [dpProcess_append_error uncompress (buf ++ p) ps.flatten e h1] at htot
      exact absurd htot (by simp)
    · have hpend2 : Pending st2 := dpProcess_leftover uncompress _ _ _ h1
      rw [dpProcess_append uncompress (buf ++ p) ps.flatten o1 st2 h1] at htot
      rcases h2 : dpProcess uncompress (st2 ++ ps.flatten) with e | ⟨o2, r2⟩ <;>
          rw [h2] at htot
      · exact absurd htot (by simp)
      · obtain ⟨rfl, rfl⟩ : o1 ++ o2 = out ∧ r2 = rem := by
          simpa using htot
        have hfp := ih st2 o2 r2 hpend2 h2
        simp only [feedPieces, hadoop_decompress, h1, hfp]

/-- One complete frame produced by `add_chunk`, decoded in one pass:
yields exactly the original chunk and an empty buffer. -/
theorem dpProcess_add_chunk (compress uncompress : List ℕ → List ℕ)
    (d : List ℕ) (hrt : uncompress (compress d) = d)
    (hd32 : d.length < 2 ^ 32) (hc32 : (compress d).length < 2 ^ 32) :
    dpProcess uncompress (add_chunk compress d) = .ok (d, []) := by
  set s := add_chunk compress d with hs
  have hslen : s.length = 8 + (compress d).length := add_chunk_length compress d
  have ht4 : s.take 4 = prepare_num d.length := by
    rw [hs]
    simp [add_chunk, prepare_num]
  have hd4 : s.drop 4 = prepare_num (compress d).length ++ compress d := by
    rw [hs]
    simp [add_chunk, prepare_num]
  have hd4t : (s.drop 4).take 4 = prepare_num (compress d).length := by
    rw [hd4]
    simp [prepare_num]
  have hd8 : s.drop 8 = compress d := by
    rw [hs]
    simp [add_chunk, prepare_num]
  have hfl : frameLen s = 8 + (compress d).length := by
    rw [frameLen, hd4t, beVal_prepare_num _ hc32]
  have hstep := dpProcess_step uncompress (s := s) (by rw [hfl, hslen])
  rw [hfl, ht4, hd4t, hd8, beVal_prepare_num _ hc32, beVal_prepare_num _ hd32,
    List.take_length, hrt] at hstep
  have hdropnil : s.drop (8 + (compress d).length) = [] :=
    List.drop_eq_nil_of_le (by rw [hslen])
  rw [hdropnil] at hstep
  have hnil : dpProcess uncompress [] = .ok ([], []) := rfl
  rw [hnil] at hstep
  simpa using hstep

/-! ### Decoding streams of `add_chunk` frames -/

/-- One `add_chunk` frame at the head of the source of
`stream_decompress`, for a non-empty payload. -/
theorem stream_decompress_add_chunk_append (compress uncompress : List ℕ → List ℕ)
    (d rest : List ℕ) (hd0 : d ≠ []) (hd : d.length < 2 ^ 32)
    (hcne : compress d ≠ []) (hc : (compress d).length < 2 ^ 32)
    (hrt : uncompress (compress d) = d) :
    stream_decompress uncompress (add_chunk compress d ++ rest) =
      (d ++ (stream_decompress uncompress rest).1,
        (stream_decompress uncompress rest).2) := by
  have hu : d.length ≠ 0 := by
    simpa [List.length_eq_zero] using hd0
  have hshape : add_chunk compress d ++ rest =
      prepare_num d.length ++ prepare_num (compress d).length ++
        compress d ++ rest := by
    simp [add_chunk]
  rw [hshape, stream_decompress_frame uncompress d.length (compress d) rest hu hd
    hcne hc (by rw [hrt]), hrt]

/-- A source holding exactly the frames of one chunk decodes to that chunk
and terminates normally — also when the chunk is empty, in which case the
zero length field terminates decoding at once. -/
theorem stream_decompress_add_chunk (compress uncompress : List ℕ → List ℕ)
    (d : List ℕ) (hd : d.length < 2 ^ 32)
    (hcne : d ≠ [] → compress d ≠ []) (hc : (compress d).length < 2 ^ 32)
    (hrt : uncompress (compress d) = d) :
    stream_decompress uncompress (add_chunk compress d) = (d, none) := by
  rcases eq_or_ne d [] with rfl | hd0
  · have hshape : add_chunk compress [] =
        prepare_num 0 ++ (prepare_num (compress []).length ++ compress []) := by
      simp [add_chunk]
    rw [hshape, stream_decompress_zero]
  · have : add_chunk compress d = add_chunk compress d ++ [] := by simp
    rw [this, stream_decompress_add_chunk_append compress uncompress d []
      hd0 hd (hcne hd0) hc hrt, stream_decompress_nil]
    simp

/-! ### The claims -/

/-- C1: Round-trip — the claim is the evident intent (the module
docstring's own usage example asserts it), but the shipped code breaks it:
line 158 rebinds `blocksize` to the Python 3 `float` that
`hadoop_snappy_max_input_size` returns, and `src.read(float)` raises
`TypeError`, so for every non-empty payload `stream_compress` writes
nothing and raises, and decoding what it wrote does not reproduce `d`
(first two conjuncts).  The slip is the true division of line 73: with an
integer per-read count — the Python 2 behaviour this code was written
against, or after the evident `//` fix — the loop of lines 159–165
round-trips for every payload including the empty one (last conjunct; the
opaque codec is assumed to round-trip, return non-empty output on
non-empty input, and keep u32-sized inputs u32-sized). -/
theorem claim_C1_round_trip_bug (compress uncompress : List ℕ → List ℕ)
    (hrt : ∀ x, uncompress (compress x) = x)
    (hne : ∀ x, x ≠ [] → compress x ≠ [])
    (hsz : ∀ x, x.length < 2 ^ 32 → (compress x).length < 2 ^ 32)
    (blocksize : ℤ) (n : ℕ) (hn : 0 < n)
    (d : List ℕ) (hd : d.length < 2 ^ 32) (hd0 : d ≠ []) :
    (stream_compress compress blocksize d).2 = some .typeError ∧
    stream_decompress uncompress (stream_compress compress blocksize d).1
      ≠ (d, none) ∧
    stream_decompress uncompress (stream_compress_chunked compress n d)
      = (d, none) := by
  refine ⟨rfl, ?_, stream_round_trip compress uncompress hrt hne hsz n hn d hd⟩
  show stream_decompress uncompress [] ≠ (d, none)
  rw [stream_decompress_nil]
  intro h
  exact hd0 (by simpa [eq_comm] using congrArg Prod.fst h)

/-- Witness for C1 at the identity codec, `blocksize` argument 0 (Python
`None`), chunk count 2, payload `[1, 2, 3]`. -/
theorem claim_C1_round_trip_bug_witness :
    (stream_compress (fun x => x) 0 [1, 2, 3]).2 = some .typeError ∧
    stream_decompress (fun x => x) (stream_compress (fun x => x) 0 [1, 2, 3]).1
      ≠ ([1, 2, 3], none) ∧
    stream_decompress (fun x => x) (stream_compress_chunked (fun x => x) 2 [1, 2, 3])
      = ([1, 2, 3], none) :=
  claim_C1_round_trip_bug (fun x => x) (fun x => x) (fun _ => rfl)
    (fun _ h => h) (fun _ h => h) 0 2 (by decide) [1, 2, 3] (by decide)
    (by decide)

/-- C2: `add_chunk(data)` returns exactly one frame and nothing else —
the 4-byte big-endian length of `data`, then the 4-byte big-endian length
of `compress(data)`, then `compress(data)`; nothing is split or buffered,
and the empty chunk still yields a valid frame whose uncompressed-length
field holds 0. -/
theorem claim_C2_add_chunk_frame (compress : List ℕ → List ℕ) (data : List ℕ)
    (hd : data.length < 2 ^ 32) (hc : (compress data).length < 2 ^ 32) :
    add_chunk compress data =
      prepare_num data.length ++ prepare_num (compress data).length ++
        compress data ∧
    (add_chunk compress data).length = 8 + (compress data).length ∧
    beVal ((add_chunk compress data).take 4) = data.length ∧
    beVal (((add_chunk compress data).drop 4).take 4) = (compress data).length ∧
    (add_chunk compress data).drop 8 = compress data ∧
    (add_chunk compress []).take 4 = prepare_num 0 ∧
    beVal ((add_chunk compress []).take 4) = 0 := by
  refine ⟨rfl, add_chunk_length compress data, ?_, ?_, ?_, ?_, ?_⟩
  · have : (add_chunk compress data).take 4 = prepare_num data.length := by
      simp [add_chunk, prepare_num]
    rw [this, beVal_prepare_num _ hd]
  · have : ((add_chunk compress data).drop 4).take 4 =
        prepare_num (compress data).length := by
      simp [add_chunk, prepare_num]
    rw [this, beVal_prepare_num _ hc]
  · simp [add_chunk, prepare_num]
  · simp [add_chunk, prepare_num]
  · have : (add_chunk compress []).take 4 = prepare_num 0 := by
      simp [add_chunk, prepare_num]
    rw [this]
    rfl

/-- Witness for C2 at the identity codec and `data = [5, 6]`. -/
theorem claim_C2_add_chunk_frame_witness :
    add_chunk (fun x => x) [5, 6] =
      prepare_num 2 ++ prepare_num 2 ++ [5, 6] ∧
    (add_chunk (fun x => x) [5, 6]).length = 8 + 2 ∧
    beVal ((add_chunk (fun x => x) [5, 6]).take 4) = 2 ∧
    beVal (((add_chunk (fun x => x) [5, 6]).drop 4).take 4) = 2 ∧
    (add_chunk (fun x => x) [5, 6]).drop 8 = [5, 6] ∧
    (add_chunk (fun x => x) []).take 4 = prepare_num 0 ∧
    beVal ((add_chunk (fun x => x) []).take 4) = 0 :=
  claim_C2_add_chunk_frame (fun x => x) [5, 6] (by decide) (by decide)

/-- C5: after a complete compressed body is read, the frame is accepted
and its decoded bytes written exactly when the decoded length equals the
declared uncompressed length; otherwise the mismatch error is raised and
nothing of that frame is written. -/
theorem claim_C5_length_mismatch (uncompress : List ℕ → List ℕ) (u : ℕ)
    (body rest : List ℕ) (hu : u ≠ 0) (hu32 : u < 2 ^ 32) (hb : body ≠ [])
    (hb32 : body.length < 2 ^ 32) :
    stream_decompress uncompress
        (prepare_num u ++ prepare_num body.length ++ body ++ rest) =
      if (uncompress body).length = u then
        (uncompress body ++ (stream_decompress uncompress rest).1,
          (stream_decompress uncompress rest).2)
      else ([], some .mismatchErr) := by
  by_cases hm : (uncompress body).length = u
  · rw [if_pos hm]
    exact stream_decompress_frame uncompress u body rest hu hu32 hb hb32 hm
  · rw [if_neg hm]
    unfold stream_decompress
    have hlen : (prepare_num u ++ prepare_num body.length ++ body ++ rest).length
        = 8 + body.length + rest.length := by
      simp [prepare_num_length]
      omega
    rw [hlen]
    have hstep := sdLoop_frame uncompress u body rest
      (8 + body.length + rest.length) hu hu32 hb hb32
    rw [if_neg hm] at hstep
    exact hstep

/-- Witness for C5 (match branch) at the identity codec,
`u = 2`, `body = [7, 7]`, empty rest. -/
theorem claim_C5_length_mismatch_witness :
    stream_decompress (fun x => x)
        (prepare_num 2 ++ prepare_num 2 ++ [7, 7] ++ []) =
      if (([7, 7] : List ℕ)).length = 2 then
        ([7, 7] ++ (stream_decompress (fun x => x) []).1,
          (stream_decompress (fun x => x) []).2)
      else ([], some .mismatchErr) := by
  have h := claim_C5_length_mismatch (fun x => x) 2 [7, 7] [] (by decide)
    (by decide) (by decide) (by decide)
  simpa using h

/-- C6 counterexample: the claim fails for `d1 = b""`.  With the identity
codec (which round-trips), `decode(encode([]) ++ encode([1]))` stops at
the zero uncompressed-length field of the first frame and returns `[]`,
not `[] ++ [1] = [1]`. -/
theorem claim_C6_counterexample :
    stream_decompress (fun x => x)
        (add_chunk (fun x => x) [] ++ add_chunk (fun x => x) [1]) = ([], none) ∧
    (([] : List ℕ) ++ [1]) ≠ [] := by
  decide

/-- C6 amended: concatenation holds as soon as every payload except
possibly the last one is non-empty — `decode(encode(d1) ++ encode(d2)) =
d1 ++ d2` for `d1 ≠ []` and *any* `d2` (a final empty payload's frame
reads as the end of the stream, which yields the same concatenation), and
three frames from three `add_chunk` calls decode to `d1 ++ d2 ++ d3` for
`d1, d2 ≠ []` and any `d3`. -/
theorem claim_C6_concatenation (compress uncompress : List ℕ → List ℕ)
    (hrt : ∀ x, uncompress (compress x) = x)
    (hne : ∀ x, x ≠ [] → compress x ≠ [])
    (hsz : ∀ x, x.length < 2 ^ 32 → (compress x).length < 2 ^ 32)
    (d1 d2 d3 : List ℕ) (h1 : d1 ≠ [])
    (hl1 : d1.length < 2 ^ 32) (hl2 : d2.length < 2 ^ 32)
    (hl3 : d3.length < 2 ^ 32) :
    stream_decompress uncompress
        (add_chunk compress d1 ++ add_chunk compress d2) = (d1 ++ d2, none) ∧
    (d2 ≠ [] →
      stream_decompress uncompress
          (add_chunk compress d1 ++ add_chunk compress d2 ++
            add_chunk compress d3)
        = (d1 ++ d2 ++ d3, none)) := by
  have hterm2 : stream_decompress uncompress (add_chunk compress d2) =
      (d2, none) :=
    stream_decompress_add_chunk compress uncompress d2 hl2
      (fun h => hne d2 h) (hsz d2 hl2) (hrt d2)
  have hterm3 : stream_decompress uncompress (add_chunk compress d3) =
      (d3, none) :=
    stream_decompress_add_chunk compress uncompress d3 hl3
      (fun h => hne d3 h) (hsz d3 hl3) (hrt d3)
  constructor
  · rw [stream_decompress_add_chunk_append compress uncompress d1
      (add_chunk compress d2) h1 hl1 (hne d1 h1) (hsz d1 hl1) (hrt d1), hterm2]
  · intro h2
    rw [List.append_assoc, stream_decompress_add_chunk_append compress uncompress
      d1 (add_chunk compress d2 ++ add_chunk compress d3) h1 hl1 (hne d1 h1)
      (hsz d1 hl1) (hrt d1),
      stream_decompress_add_chunk_append compress uncompress d2
      (add_chunk compress d3) h2 hl2 (hne d2 h2) (hsz d2 hl2) (hrt d2), hterm3]
    simp [List.append_assoc]

/-- Witness for C6 (amended) at the identity codec with payloads `[1]`,
`[2]`, `[3]`. -/
theorem claim_C6_concatenation_witness :
    stream_decompress (fun x => x)
        (add_chunk (fun x => x) [1] ++ add_chunk (fun x => x) [2]) =
      ([1] ++ [2], none) ∧
    (([2] : List ℕ) ≠ [] →
      stream_decompress (fun x => x)
          (add_chunk (fun x => x) [1] ++ add_chunk (fun x => x) [2] ++
            add_chunk (fun x => x) [3]) = ([1] ++ [2] ++ [3], none)) :=
  claim_C6_concatenation (fun x => x) (fun x => x) (fun _ => rfl)
    (fun _ h => h) (fun _ h => h) [1] [2] [3] (by decide)
    (by decide) (by decide) (by decide)

/-- C8: `stream_decompress` treats a zero-valued uncompressed-length field
as stream termination — it stops and returns normally whatever follows, so
an empty chunk (whose frame starts with a zero field) cannot be a
non-terminal frame in whole-stream decoding. -/
theorem claim_C8_zero_terminates (compress uncompress : List ℕ → List ℕ)
    (rest : List ℕ) :
    stream_decompress uncompress (prepare_num 0 ++ rest) = ([], none) ∧
    stream_decompress uncompress (add_chunk compress [] ++ rest) = ([], none) := by
  refine ⟨stream_decompress_zero uncompress rest, ?_⟩
  have hshape : add_chunk compress [] ++ rest =
      prepare_num 0 ++ (prepare_num (compress []).length ++ compress [] ++ rest) := by
    simp [add_chunk]
  rw [hshape]
  exact stream_decompress_zero uncompress _

/-- C3: fragmentation invariance of the incremental frame decoder
(modelled from the spec, §4.2): for every payload `d` and every way of
cutting the encoded bytes of `d` into consecutive pieces — empty pieces,
single-byte pieces, or everything at once — feeding the pieces in order to
one decoder and concatenating every returned output yields exactly `d`,
with an empty buffer left behind. -/
theorem claim_C3_fragmentation_invariance (compress uncompress : List ℕ → List ℕ)
    (d : List ℕ) (hrt : uncompress (compress d) = d)
    (hd : d.length < 2 ^ 32) (hc : (compress d).length < 2 ^ 32)
    (pieces : List (List ℕ)) (hp : pieces.flatten = add_chunk compress d) :
    feedPieces uncompress [] pieces = .ok (d, []) := by
  apply feedPieces_eq uncompress pieces [] d [] (by unfold Pending; decide)
  rw [List.nil_append, hp]
  exact dpProcess_add_chunk compress uncompress d hrt hd hc

/-- Witness for C3 at the identity codec, payload `[1, 2]`, whose frame
`[0,0,0,2, 0,0,0,2, 1,2]` is fed as four ragged pieces (one of them
empty). -/
theorem claim_C3_fragmentation_invariance_witness :
    feedPieces (fun x => x) [] [[0, 0, 0], [], [2, 0, 0, 0, 2, 1], [2]] =
      .ok ([1, 2], []) :=
  claim_C3_fragmentation_invariance (fun x => x) (fun x => x) [1, 2] rfl
    (by decide) (by decide) [[0, 0, 0], [], [2, 0, 0, 0, 2, 1], [2]]
    (by decide)

/-- C9 counterexample: the input below is one complete valid frame (the
identity-codec frame of `[1]`) followed by a single stray byte — i.e. a
short (1-byte) final length field starting exactly at a frame boundary.
The claim says decoding terminates normally; the code instead raises
`struct.error` from `struct.unpack` on the 1-byte read. -/
theorem claim_C9_counterexample :
    add_chunk (fun x => x) [1] = [0, 0, 0, 1, 0, 0, 0, 1, 1] ∧
    stream_decompress (fun x => x) [0, 0, 0, 1, 0, 0, 0, 1, 1, 7] =
      ([1], some .structError) := by
  decide

/-- C9 amended: when the input ends exactly at a frame boundary, a
*missing* final length field (zero bytes) causes normal termination with
no error; a *short* final length field of 1–3 bytes instead raises
`struct.error` (after the preceding frames' bytes were already written). -/
theorem claim_C9_end_of_stream (uncompress : List ℕ → List ℕ) (u : ℕ)
    (body extra : List ℕ) (hu : u ≠ 0) (hu32 : u < 2 ^ 32) (hb : body ≠ [])
    (hb32 : body.length < 2 ^ 32) (hmatch : (uncompress body).length = u)
    (hex : extra ≠ []) (hexlen : extra.length < 4) :
    stream_decompress uncompress (prepare_num u ++ prepare_num body.length ++ body)
      = (uncompress body, none) ∧
    stream_decompress uncompress
        (prepare_num u ++ prepare_num body.length ++ body ++ extra)
      = (uncompress body, some .structError) := by
  constructor
  · have hnil : prepare_num u ++ prepare_num body.length ++ body =
        prepare_num u ++ prepare_num body.length ++ body ++ [] := by simp
    rw [hnil, stream_decompress_frame uncompress u body [] hu hu32 hb hb32 hmatch,
      stream_decompress_nil]
    simp
  · rw [stream_decompress_frame uncompress u body extra hu hu32 hb hb32 hmatch]
    have hextra : stream_decompress uncompress extra = ([], some .structError) := by
      show sdLoop uncompress (extra.length + 1) extra = _
      obtain ⟨f, hf⟩ : ∃ f, extra.length + 1 = f + 1 := ⟨extra.length, rfl⟩
      rw [hf]
      simp [sdLoop, read_int_short extra hex hexlen]
    rw [hextra]
    simp

/-- Witness for C9 (amended) at the identity codec, `u = 1`,
`body = [1]`, `extra = [7]`. -/
theorem claim_C9_end_of_stream_witness :
    stream_decompress (fun x => x) (prepare_num 1 ++ prepare_num 1 ++ [1])
      = ([1], none) ∧
    stream_decompress (fun x => x) (prepare_num 1 ++ prepare_num 1 ++ [1] ++ [7])
      = ([1], some .structError) := by
  have h := claim_C9_end_of_stream (fun x => x) 1 [1] [7] (by decide) (by decide)
    (by decide) (by decide) (by decide) (by decide) (by decide)
  simpa using h

/-- C10 counterexample: `hadoop_snappy_max_input_size` raises nothing on a
non-positive block size — it is a total computation that returns a value:
`0` (falsy, like `None`) silently selects the 256 KiB default and yields
`655264/3`, and a negative block size such as `-6` is used as-is, yielding
the (negative, nonsensical) size `-37`.  No `InvalidConfiguration` error
exists anywhere in this code path. -/
theorem claim_C10_counterexample :
    hadoop_snappy_max_input_size (-6) = -37 ∧
    hadoop_snappy_max_input_size 0 = 655264 / 3 := by
  constructor <;> norm_num [hadoop_snappy_max_input_size]

/-- C10 amended: a non-positive block size is not rejected: `0` falls back
to the 256 KiB default (result `655264/3 ≈ 218421.3`), while every
negative block size flows through the formula unchanged and produces a
negative (unusable) payload size; in neither case is any error raised. -/
theorem claim_C10_nonpositive_block_size (b : ℤ) (hb : b < 0) :
    hadoop_snappy_max_input_size b < 0 ∧
    hadoop_snappy_max_input_size 0 = 655264 / 3 := by
  constructor
  · unfold hadoop_snappy_max_input_size
    rw [if_neg (by omega : b ≠ 0)]
    have hbq : (b : ℚ) < 0 := by exact_mod_cast hb
    have h6 : (b : ℚ) / 6 > b := by linarith [hbq]
    linarith
  · norm_num [hadoop_snappy_max_input_size]

/-- Witness for C10 (amended) at `b = -6`. -/
theorem claim_C10_nonpositive_block_size_witness :
    hadoop_snappy_max_input_size (-6) < 0 ∧
    hadoop_snappy_max_input_size 0 = 655264 / 3 :=
  claim_C10_nonpositive_block_size (-6) (by norm_num)

/-- C4 counterexample: the claim fails for the (valid, per C2) frame of
the *empty* payload.  With the identity codec its frame is
`[0,0,0,0,0,0,0,0]`; the 4-byte proper prefix `[0,0,0,0]` is cut strictly
before the frame completes, yet `stream_decompress` returns normally with
no error instead of raising a truncation error. -/
theorem claim_C4_counterexample :
    (0 : ℕ) < 4 ∧ 4 < (add_chunk (fun x => x) []).length ∧
    (add_chunk (fun x => x) []).take 4 = [0, 0, 0, 0] ∧
    stream_decompress (fun x => x) ((add_chunk (fun x => x) []).take 4)
      = ([], none) := by
  decide

/-- C4 amended: truncation detection holds for every frame with a
*non-empty* payload: decoding any proper non-empty prefix of such a frame
raises an error — `struct.error` on a 1–3-byte length field,
`UncompressError` on a missing compressed-length field or a short body —
and never silently writes any bytes. -/
theorem claim_C4_truncation_detection (compress uncompress : List ℕ → List ℕ)
    (d : List ℕ) (hd0 : d ≠ []) (hd : d.length < 2 ^ 32)
    (hcne : compress d ≠ []) (hc : (compress d).length < 2 ^ 32)
    (n : ℕ) (hn0 : 0 < n) (hnlt : n < (add_chunk compress d).length) :
    (stream_decompress uncompress ((add_chunk compress d).take n)).1 = [] ∧
    (stream_decompress uncompress ((add_chunk compress d).take n)).2 ≠ none := by
  suffices h : ∃ e, stream_decompress uncompress ((add_chunk compress d).take n)
      = ([], some e) by
    obtain ⟨e, he⟩ := h
    rw [he]
    exact ⟨rfl, by simp⟩
  have hu0 : d.length ≠ 0 := by
    simpa [List.length_eq_zero] using hd0
  have hc0 : (compress d).length ≠ 0 := by
    simpa [List.length_eq_zero] using hcne
  have hF : add_chunk compress d =
      prepare_num d.length ++ (prepare_num (compress d).length ++ compress d) := by
    simp [add_chunk]
  have hFlen : (add_chunk compress d).length = 8 + (compress d).length :=
    add_chunk_length compress d
  set t := (add_chunk compress d).take n with ht
  have htlen : t.length = n := by
    rw [ht, List.length_take]
    omega
  rcases lt_or_ge n 4 with h4 | h4
  · -- cut inside the uncompressed-length field: struct.error
    refine ⟨.structError, ?_⟩
    have hne : t ≠ [] := by
      rw [← List.length_pos, htlen]
      omega
    have hri := read_int_short t hne (by rw [htlen]; omega)
    show sdLoop uncompress (t.length + 1) t = ([], some .structError)
    rw [htlen]
    simp [sdLoop, hri]
  · have ht4 : t.take 4 = prepare_num d.length := by
      rw [ht, List.take_take, min_eq_left h4, hF]
      simp [prepare_num]
    have hru : read_int t = .ok (d.length, t.drop 4) := by
      rw [read_int_long (by rw [htlen]; omega), ht4, beVal_prepare_num _ hd]
    have htd4 : t.drop 4 =
        (prepare_num (compress d).length ++ compress d).take (n - 4) := by
      rw [ht, List.drop_take]
      congr 1
    rcases lt_or_ge n 8 with h8 | h8
    · rcases eq_or_lt_of_le h4 with heq | h5
      · -- cut exactly after the first field: the compressed-length read
        -- returns 0 and the code raises the failed-length error
        refine ⟨.failedLenErr, ?_⟩
        have hd4nil : t.drop 4 = [] := by
          rw [htd4, ← heq]
          simp
        show sdLoop uncompress (t.length + 1) t = ([], some .failedLenErr)
        rw [htlen]
        simp [sdLoop, hru, hu0, hd4nil, read_int_nil]
      · -- cut inside the compressed-length field: struct.error
        refine ⟨.structError, ?_⟩
        have hlen4 : (t.drop 4).length = n - 4 := by
          rw [List.length_drop, htlen]
        have hne4 : t.drop 4 ≠ [] := by
          rw [← List.length_pos, hlen4]
          omega
        have hri2 := read_int_short (t.drop 4) hne4 (by rw [hlen4]; omega)
        show sdLoop uncompress (t.length + 1) t = ([], some .structError)
        rw [htlen]
        simp [sdLoop, hru, hu0, hri2]
    · -- cut inside the body: the failed-chunk error
      refine ⟨.failedChunkErr, ?_⟩
      have htd4t : (t.drop 4).take 4 = prepare_num (compress d).length := by
        rw [htd4, List.take_take, min_eq_left (by omega : 4 ≤ n - 4)]
        simp [prepare_num]
      have hru2 : read_int (t.drop 4) =
          .ok ((compress d).length, (t.drop 4).drop 4) := by
        rw [read_int_long (by rw [List.length_drop, htlen]; omega), htd4t,
          beVal_prepare_num _ hc]
      have htd8 : (t.drop 4).drop 4 = (compress d).take (n - 8) := by
        rw [List.drop_drop, ht, List.drop_take]
        have : (add_chunk compress d).drop (4 + 4) = compress d := by
          rw [hF]
          simp [prepare_num]
        rw [this]
      have hcut : (((t.drop 4).drop 4).take (compress d).length).length ≠
          (compress d).length := by
        rw [List.length_take, htd8, List.length_take]
        omega
      show sdLoop uncompress (t.length + 1) t = ([], some .failedChunkErr)
      rw [htlen]
      simp only [sdLoop, hru, if_neg hu0, hru2, if_neg hc0, if_pos hcut]

/-- Witness for C4 (amended) at the identity codec, payload `[1]`
(frame `[0,0,0,1,0,0,0,1,1]`), cut at 5 bytes. -/
theorem claim_C4_truncation_detection_witness :
    (stream_decompress (fun x => x) ((add_chunk (fun x => x) [1]).take 5)).1
      = [] ∧
    (stream_decompress (fun x => x) ((add_chunk (fun x => x) [1]).take 5)).2
      ≠ none :=
  claim_C4_truncation_detection (fun x => x) (fun x => x) [1] (by decide)
    (by decide) (by decide) (by decide) 5 (by decide) (by decide)

/-- C7 counterexample: the sizing bound fails for small block sizes,
because `hadoop_snappy_max_input_size` budgets no room for the 8 header
bytes of the frame.  At `B = 42` the computed payload size is exactly 3;
the codec `x ↦ x ++ 32 zero bytes` respects the worst-case bound
`len + len/6 + 32` everywhere, yet the frame for a 3-byte payload is
`8 + 35 = 43 > 42` bytes long. -/
theorem claim_C7_counterexample :
    ¬ (∀ compress : List ℕ → List ℕ,
        (∀ x : List ℕ, ((compress x).length : ℚ) ≤
          x.length + (x.length : ℚ) / 6 + 32) →
        ∀ B : ℤ, 32 < B →
        ∀ d : List ℕ, (d.length : ℚ) = hadoop_snappy_max_input_size B →
        ((add_chunk compress d).length : ℤ) ≤ B) := by
  intro h
  have hbound : ∀ x : List ℕ,
      (((x ++ List.replicate 32 0) : List ℕ).length : ℚ) ≤
        x.length + (x.length : ℚ) / 6 + 32 := by
    intro x
    have h6 : (0 : ℚ) ≤ (x.length : ℚ) / 6 := by positivity
    rw [List.length_append, List.length_replicate]
    push_cast
    linarith
  have h42 := h (fun x => x ++ List.replicate 32 0) hbound 42 (by norm_num)
    [1, 2, 3] (by norm_num [hadoop_snappy_max_input_size])
  have hlen : (add_chunk (fun x => x ++ List.replicate 32 0) [1, 2, 3]).length
      = 43 := by decide
  rw [hlen] at h42
  norm_num at h42

/-- C7 amended: the first half of the claim is exact —
`hadoop_snappy_max_input_size B` uses the `B/6 + 32` expansion budget
exactly, so it is the largest size that still fits within `B` alongside
that budget — and the frame-fits-in-block bound holds for every
block size `B ≥ 66` (the exact threshold: every realizable payload size
has `B` a multiple of 6, and `B ∈ {42, 48, 54, 60}` admits a bound-
respecting codec that overflows the block), for any codec whose output
length is at most `len + len/6 + 32`. -/
theorem claim_C7_sizing_bound (compress : List ℕ → List ℕ)
    (hbound : ∀ x : List ℕ, ((compress x).length : ℚ) ≤
      x.length + (x.length : ℚ) / 6 + 32)
    (B : ℤ) (hB : 66 ≤ B) (d : List ℕ)
    (hd : (d.length : ℚ) = hadoop_snappy_max_input_size B) :
    hadoop_snappy_max_input_size B + ((B : ℚ) / 6 + 32) = B ∧
    ((add_chunk compress d).length : ℤ) ≤ B := by
  have hB0 : B ≠ 0 := by omega
  have hmax : hadoop_snappy_max_input_size B = (B : ℚ) - ((B : ℚ) / 6 + 32) := by
    unfold hadoop_snappy_max_input_size
    rw [if_neg hB0]
  refine ⟨by rw [hmax]; ring, ?_⟩
  rw [hmax] at hd
  have hZ : (5 : ℤ) * B = 6 * d.length + 192 := by
    have h6 : (6 : ℚ) * d.length = 5 * B - 192 := by
      field_simp at hd
      linarith
    exact_mod_cast (by linarith : (5 : ℚ) * B = 6 * d.length + 192)
  have hc6 : (6 : ℤ) * (compress d).length ≤ 7 * d.length + 192 := by
    have hq : (6 : ℚ) * (compress d).length ≤ 7 * d.length + 192 := by
      have := hbound d
      have h66 : (6 : ℚ) * ((d.length : ℚ) / 6) = d.length := by
        field_simp
      linarith
    exact_mod_cast hq
  have hlen : (add_chunk compress d).length = 8 + (compress d).length :=
    add_chunk_length compress d
  rw [hlen]
  push_cast
  omega

/-- Witness for C7 (amended) at `B = 66`, the padding codec
`x ↦ x ++ 32 zero bytes`, and the 23-byte payload `replicate 23 0`
(`hadoop_snappy_max_input_size 66 = 23`); the frame has
`8 + 23 + 32 = 63 ≤ 66` bytes. -/
theorem claim_C7_sizing_bound_witness :
    hadoop_snappy_max_input_size 66 + ((66 : ℚ) / 6 + 32) = 66 ∧
    ((add_chunk (fun x => x ++ List.replicate 32 0)
        (List.replicate 23 0)).length : ℤ) ≤ 66 :=
  claim_C7_sizing_bound (fun x => x ++ List.replicate 32 0)
    (fun x => by
      have h6 : (0 : ℚ) ≤ (x.length : ℚ) / 6 := by positivity
      rw [List.length_append, List.length_replicate]
      push_cast
      linarith)
    66 (by norm_num) (List.replicate 23 0)
    (by norm_num [hadoop_snappy_max_input_size])

end SnappyHadoop
